import Mathlib

/-!
Shallow embedding of `fix_daemon_logs.py`, a one-shot line rewriter that
migrates legacy logging calls

  `<indent>d.logger.<Level>("<message>"[, <rawArgs>])`

to a structured-field form with a `ctx` first argument.

Strings are modelled as `List Char`.  The regular expression

  `^(\s*)d\.logger\.(Info|Debug|Error|Warn)\("([^"]+)"(?:,\s*(.+?))?\)$`

(applied with `re.match` to the lines of `content.split('\n')`, which are
newline-free) is embedded as a deterministic parser `matchLine`: on this
pattern the only engine backtracking that influences the result is in the
tail `,\s*(.+?)\)$`, where the greedy `\s*` backtracks by at most one
character when everything between the comma and the final `)` is
whitespace; `matchTail` reproduces exactly that choice.  The alternation
`(Info|Debug|Error|Warn)` is deterministic because the four alternatives
start with four distinct characters, and `([^"]+)` always captures the
maximal run of non-quote characters before the first `"`.

The character class `\s` (and Python's `str.strip()`) is modelled on the
ASCII whitespace characters, which are the ones occurring in the Go source
files the tool targets.
-/

namespace FixDaemonLogs

/-- The double-quote character. -/
def dq : Char := Char.ofNat 34

/-- The single-quote character. -/
def sq : Char := Char.ofNat 39

/-- ASCII whitespace, as matched by the regex class `\s` and stripped by
Python's `str.strip()`. -/
def isPySpace (c : Char) : Bool :=
  c == ' ' || c == '\t' || c == '\n' || c == '\r' || c == Char.ofNat 11 || c == Char.ofNat 12

/-- The character list of a string literal. -/
def str (s : String) : List Char := s.data

/-- Strip a literal prefix from a character list (the literal pieces of the
regular expression). -/
def stripPre : List Char → List Char → Option (List Char)
  | [], s => some s
  | _ :: _, [] => none
  | p :: ps, c :: cs => if c = p then stripPre ps cs else none

/-- The level alternation `(Info|Debug|Error|Warn)`, in the order the
pattern lists the alternatives. -/
def levels : List (List Char) := [str "Info", str "Debug", str "Error", str "Warn"]

/-- Try the level alternatives in order; the first whose literal text is a
prefix wins.  Since the four alternatives start with distinct characters,
at most one can match, so committing to the first is exactly the regex
alternation semantics. -/
def tryLevels : List (List Char) → List Char → Option (List Char × List Char)
  | [], _ => none
  | l :: ls, s =>
    match stripPre l s with
    | some r => some (l, r)
    | none => tryLevels ls s

/-- Match the pattern tail `(?:,\s*(.+?))?\)$` against the text that
follows the closing quote of the message (newline-free).  Returns `none`
when the tail does not match, `some none` when the optional group is
absent (`t = ")"`), and `some (some a)` when the group captured `a`:
after the comma, the greedy `\s*` takes the maximal whitespace run, backing
off just enough to leave at least one character for the lazy `(.+?)`,
which is then forced to extend to the character before the final `)`. -/
def matchTail (t : List Char) : Option (Option (List Char)) :=
  match t with
  | [] => none
  | [c] => if c = ')' then some none else none
  | c0 :: rest =>
    if c0 = ',' then
      match rest.getLast? with
      | some cl =>
        if cl = ')' then
          if rest.dropLast = [] then none
          else
            some (some (rest.dropLast.drop
              (min ((rest.dropLast.takeWhile isPySpace).length) (rest.dropLast.length - 1))))
        else none
      | none => none
    else none

/-- The captured groups of a matched line: `indent` is group 1, `level`
group 2, `message` group 3 and `args` the optional group 4. -/
structure LogCallMatch where
  indent : List Char
  level : List Char
  message : List Char
  args : Option (List Char)
deriving DecidableEq

/-- The part of the pattern after the level: the literal `("`, a nonempty
run `([^"]+)` of non-quote characters (the message), the closing `"`, then
the tail `(?:,\s*(.+?))?\)$`.  `line` and `lvl` are passed through for the
captured groups; `r2` is the text the level left over. -/
def matchMsgTail (line lvl r2 : List Char) : Option LogCallMatch :=
  match r2 with
  | c1 :: c2 :: r3 =>
    if c1 = '(' ∧ c2 = dq then
      match r3.dropWhile (fun c => c != dq) with
      | _ :: t =>
        if r3.takeWhile (fun c => c != dq) = [] then none
        else
          match matchTail t with
          | none => none
          | some a => some ⟨line.takeWhile isPySpace, lvl, r3.takeWhile (fun c => c != dq), a⟩
      | [] => none
    else none
  | _ => none

/-- `re.match` of the pattern against one (newline-free) line of the file:
leading whitespace, the literal `d.logger.`, one of the four levels, then
the message and tail via `matchMsgTail`. -/
def matchLine (line : List Char) : Option LogCallMatch :=
  match stripPre (str "d.logger.") (line.dropWhile isPySpace) with
  | none => none
  | some r1 =>
    match tryLevels levels r1 with
    | none => none
    | some (lvl, r2) => matchMsgTail line lvl r2

/-- Python's `str.strip()` (whitespace from both ends). -/
def pyStrip (l : List Char) : List Char :=
  ((l.dropWhile isPySpace).reverse.dropWhile isPySpace).reverse

/-- Python's `str.strip(q)` for a one-character set: remove every leading
and trailing occurrence of `q`. -/
def pyStripChar (l : List Char) (q : Char) : List Char :=
  ((l.dropWhile (fun c => c == q)).reverse.dropWhile (fun c => c == q)).reverse

/-- `parts[i].strip('"').strip("'")`: the key text of a field. -/
def stripKey (k : List Char) : List Char := pyStripChar (pyStripChar k dq) sq

/-- `f'logging.Field{{Key: "{key}", Value: {value}}}'`. -/
def fieldText (k v : List Char) : List Char :=
  str "logging.Field\x7bKey: \"" ++ stripKey k ++ str "\", Value: " ++ v ++ str "\x7d"

/-- The comma-splitting loop of `convert_log_call`: state is the
accumulated `parts`, the `current` accumulator, the parenthesis depth
(a Python `int`, which can go negative) and the quote state
(`none` = not in quotes, `some q` = in quotes opened by `q`). -/
def splitGo : List (List Char) → List Char → Int → Option Char → List Char → List (List Char)
  | parts, current, _, _, [] =>
    if pyStrip current = [] then parts else parts ++ [pyStrip current]
  | parts, current, depth, none, c :: cs =>
    if c = dq ∨ c = sq then splitGo parts (current ++ [c]) depth (some c) cs
    else if c = '(' then splitGo parts (current ++ [c]) (depth + 1) none cs
    else if c = ')' then splitGo parts (current ++ [c]) (depth - 1) none cs
    else if c = ',' ∧ depth = 0 then splitGo (parts ++ [pyStrip current]) [] depth none cs
    else splitGo parts (current ++ [c]) depth none cs
  | parts, current, depth, some q, c :: cs =>
    if c = q then splitGo parts (current ++ [c]) depth none cs
    else splitGo parts (current ++ [c]) depth (some q) cs

/-- Split the raw argument text into top-level comma-separated parts. -/
def splitParts (args : List Char) : List (List Char) := splitGo [] [] 0 none args

/-- The pairing loop of `convert_log_call`: consume the parts two at a
time; a final unpaired part is skipped. -/
def buildFields : List (List Char) → List (List Char)
  | k :: v :: rest => fieldText k v :: buildFields rest
  | _ => []

/-- Python's `sep.join(pieces)`. -/
def joinSep (sep : List Char) : List (List Char) → List Char
  | [] => []
  | [f] => f
  | f :: fs => f ++ sep ++ joinSep sep fs

/-- The local `args` of `convert_log_call`: group 4 when present, else the
empty string. -/
def argsOf (m : LogCallMatch) : List Char :=
  match m.args with | some a => a | none => []

/-- The local `fields` of `convert_log_call`: empty when `args` is falsy,
otherwise the fields built from the top-level split of `args`. -/
def fieldsOf (m : LogCallMatch) : List (List Char) :=
  if argsOf m = [] then [] else buildFields (splitParts (argsOf m))

/-- The final string assembly of `convert_log_call`: the single-line form
when there are no fields, otherwise the multi-line form with the fields
joined by `",\n" + indent + "\t"` and a closing `indent + ")"`. -/
def renderCall (m : LogCallMatch) (fields : List (List Char)) : List Char :=
  if fields = [] then
    m.indent ++ str "d.logger." ++ m.level ++ str "(ctx, \"" ++ m.message ++ str "\")"
  else
    m.indent ++ str "d.logger." ++ m.level ++ str "(ctx, \"" ++ m.message ++ str "\"" ++
      (str ",\n" ++ m.indent ++ str "\t" ++
        joinSep (str ",\n" ++ m.indent ++ str "\t") fields ++ str ",\n" ++ m.indent) ++ str ")"

/-- `convert_log_call`: rebuild the call with `ctx` inserted and the
key/value pairs rendered as fields. -/
def convert_log_call (m : LogCallMatch) : List Char := renderCall m (fieldsOf m)

/-- The per-line step of `fix_file`: rewrite a matched line, pass any
other line through unchanged. -/
def fixLine (line : List Char) : List Char :=
  match matchLine line with
  | some m => convert_log_call m
  | none => line

/-- `content.split('\n')`. -/
def linesOf : List Char → List (List Char)
  | [] => [[]]
  | c :: cs =>
    if c = '\n' then [] :: linesOf cs
    else
      match linesOf cs with
      | [] => [[c]]
      | l :: ls => (c :: l) :: ls

/-- `'\n'.join(lines)`. -/
def joinLines (ls : List (List Char)) : List Char := joinSep ['\n'] ls

/-- The pure content transformation performed by `fix_file` between the
read and the write: split into lines, rewrite each line, join back. -/
def fix_file (content : List Char) : List Char :=
  joinLines ((linesOf content).map fixLine)

/-! ### Membership helpers -/

theorem mem_of_mem_dropWhile (p : Char → Bool) (c : Char) :
    ∀ l : List Char, c ∈ l.dropWhile p → c ∈ l
  | [], h => h
  | x :: xs, h => by
    cases hx : p x with
    | true =>
      exact List.mem_cons_of_mem x
        (mem_of_mem_dropWhile p c xs (by simpa [List.dropWhile, hx] using h))
    | false => simpa [List.dropWhile, hx] using h

theorem mem_of_mem_takeWhile (p : Char → Bool) (c : Char) :
    ∀ l : List Char, c ∈ l.takeWhile p → c ∈ l
  | [], h => h
  | x :: xs, h => by
    cases hx : p x with
    | true =>
      rw [List.takeWhile, hx] at h
      rcases List.mem_cons.mp h with h | h
      · exact h ▸ List.mem_cons_self x xs
      · exact List.mem_cons_of_mem x (mem_of_mem_takeWhile p c xs h)
    | false => simp [List.takeWhile, hx] at h

theorem mem_of_mem_pyStrip (c : Char) (l : List Char) (h : c ∈ pyStrip l) : c ∈ l := by
  unfold pyStrip at h
  rw [List.mem_reverse] at h
  have h2 := mem_of_mem_dropWhile _ _ _ h
  rw [List.mem_reverse] at h2
  exact mem_of_mem_dropWhile _ _ _ h2

theorem mem_of_mem_pyStripChar (c : Char) (l : List Char) (q : Char)
    (h : c ∈ pyStripChar l q) : c ∈ l := by
  unfold pyStripChar at h
  rw [List.mem_reverse] at h
  have h2 := mem_of_mem_dropWhile _ _ _ h
  rw [List.mem_reverse] at h2
  exact mem_of_mem_dropWhile _ _ _ h2

theorem mem_of_mem_stripKey (c : Char) (k : List Char) (h : c ∈ stripKey k) : c ∈ k :=
  mem_of_mem_pyStripChar c _ dq (mem_of_mem_pyStripChar c _ sq h)

/-! ### stripPre and tryLevels -/

theorem stripPre_eq_some_iff : ∀ p s r : List Char, stripPre p s = some r ↔ s = p ++ r
  | [], s, r => by simp [stripPre]
  | a :: ps, [], r => by simp [stripPre]
  | a :: ps, c :: cs, r => by
    by_cases hc : c = a
    · subst hc
      simp [stripPre, stripPre_eq_some_iff ps cs r]
    · simp [stripPre, hc]

theorem stripPre_self (p s : List Char) : stripPre p (p ++ s) = some s :=
  (stripPre_eq_some_iff p (p ++ s) s).mpr rfl

theorem tryLevels_eq_some :
    ∀ ls : List (List Char), ∀ s l r : List Char,
      tryLevels ls s = some (l, r) → l ∈ ls ∧ s = l ++ r
  | [], s, l, r, h => by simp [tryLevels] at h
  | L :: ls, s, l, r, h => by
    cases hL : stripPre L s with
    | some rr =>
      rw [tryLevels, hL] at h
      injection h with h
      injection h with h1 h2
      subst h1; subst h2
      exact ⟨List.mem_cons_self _ _, (stripPre_eq_some_iff _ _ _).mp hL⟩
    | none =>
      rw [tryLevels, hL] at h
      have ih := tryLevels_eq_some ls s l r h
      exact ⟨List.mem_cons_of_mem _ ih.1, ih.2⟩

/-! ### Computing the whitespace scan on produced lines -/

theorem dropWhile_ws :
    ∀ (w : List Char) (x : Char) (t : List Char),
      (∀ c ∈ w, isPySpace c = true) → isPySpace x = false →
      (w ++ x :: t).dropWhile isPySpace = x :: t
  | [], x, t, _, hx => by simp [List.dropWhile, hx]
  | a :: w, x, t, hw, hx => by
    have ha := hw a (List.mem_cons_self a w)
    rw [List.cons_append, List.dropWhile, ha]
    exact dropWhile_ws w x t (fun c hc => hw c (List.mem_cons_of_mem a hc)) hx

/-- A line whose first non-whitespace character is not `d` never matches
the pattern. -/
theorem matchLine_none_of_head_ne (w : List Char) (x : Char) (r : List Char)
    (hw : ∀ c ∈ w, isPySpace c = true) (hx : isPySpace x = false) (hd : x ≠ 'd') :
    matchLine (w ++ x :: r) = none := by
  unfold matchLine
  rw [dropWhile_ws w x r hw hx,
    show str "d.logger." = 'd' :: str ".logger." from rfl]
  simp [stripPre, hd]

/-- A rewritten call line — whitespace, then `d.logger.<Level>` with a `(`
followed by the character `c` (the start of the inserted `ctx`) — never
matches the pattern, which demands a `"` right after the `(`. -/
theorem matchLine_none_ctx (w lvl r : List Char)
    (hw : ∀ c ∈ w, isPySpace c = true) (hlvl : lvl ∈ levels) :
    matchLine (w ++ str "d.logger." ++ lvl ++ '(' :: 'c' :: r) = none := by
  have hws := dropWhile_ws w 'd' (str ".logger." ++ (lvl ++ '(' :: 'c' :: r)) hw (by decide)
  unfold matchLine
  simp only [List.append_assoc]
  rw [show str "d.logger." ++ (lvl ++ '(' :: 'c' :: r)
        = 'd' :: (str ".logger." ++ (lvl ++ '(' :: 'c' :: r)) from rfl]
  rw [hws]
  rw [show ('d' : Char) :: (str ".logger." ++ (lvl ++ '(' :: 'c' :: r))
        = str "d.logger." ++ (lvl ++ '(' :: 'c' :: r) from rfl]
  rw [stripPre_self]
  simp only [levels, List.mem_cons, List.not_mem_nil, or_false] at hlvl
  rcases hlvl with h | h | h | h <;> subst h <;> rfl

theorem mem_of_mem_drop (c : Char) : ∀ (n : Nat) (l : List Char), c ∈ l.drop n → c ∈ l
  | 0, _, h => h
  | _ + 1, [], h => h
  | n + 1, x :: xs, h =>
    List.mem_cons_of_mem x (mem_of_mem_drop c n xs h)

theorem mem_of_mem_dropLast (c : Char) : ∀ l : List Char, c ∈ l.dropLast → c ∈ l
  | [], h => h
  | [_], h => by simp [List.dropLast] at h
  | x :: y :: xs, h => by
    rw [List.dropLast_cons₂] at h
    rcases List.mem_cons.mp h with h | h
    · exact h ▸ List.mem_cons_self x (y :: xs)
    · exact List.mem_cons_of_mem x (mem_of_mem_dropLast c (y :: xs) h)

/-! ### What a successful match tells us -/

theorem matchTail_mem (t a : List Char) (h : matchTail t = some (some a)) :
    ∀ c ∈ a, c ∈ t := by
  intro c hc
  rcases t with _ | ⟨c0, _ | ⟨c1, rest2⟩⟩
  · simp [matchTail] at h
  · replace h : (if c0 = ')' then some none else none) = some (some a) := h
    split_ifs at h
    all_goals simp at h
  · replace h : (if c0 = ',' then
        (match (c1 :: rest2).getLast? with
          | some cl =>
            if cl = ')' then
              if (c1 :: rest2).dropLast = [] then none
              else some (some ((c1 :: rest2).dropLast.drop
                (min (((c1 :: rest2).dropLast.takeWhile isPySpace).length)
                  ((c1 :: rest2).dropLast.length - 1))))
            else none
          | none => none)
        else none) = some (some a) := h
    by_cases h0 : c0 = ','
    · rw [if_pos h0] at h
      subst h0
      cases hg : (c1 :: rest2).getLast? with
      | none => rw [hg] at h; exact absurd h (by simp)
      | some cl =>
        rw [hg] at h
        replace h : (if cl = ')' then
            if (c1 :: rest2).dropLast = [] then none
            else some (some ((c1 :: rest2).dropLast.drop
              (min (((c1 :: rest2).dropLast.takeWhile isPySpace).length)
                ((c1 :: rest2).dropLast.length - 1))))
          else none) = some (some a) := h
        by_cases hcl : cl = ')'
        · rw [if_pos hcl] at h
          by_cases hemp : (c1 :: rest2).dropLast = []
          · rw [if_pos hemp] at h; exact absurd h (by simp)
          · rw [if_neg hemp] at h
            injection h with h
            injection h with h
            subst h
            exact List.mem_cons_of_mem ','
              (mem_of_mem_dropLast c _ (mem_of_mem_drop c _ _ hc))
        · rw [if_neg hcl] at h; exact absurd h (by simp)
    · rw [if_neg h0] at h
      exact absurd h (by simp)

theorem matchLine_eq_some (line : List Char) (m : LogCallMatch)
    (h : matchLine line = some m) :
    m.indent = line.takeWhile isPySpace ∧ m.level ∈ levels ∧
      m.message ≠ [] ∧ (∀ c ∈ m.message, c ∈ line) ∧
      (∀ a, m.args = some a → ∀ c ∈ a, c ∈ line) := by
  unfold matchLine at h
  cases h1 : stripPre (str "d.logger.") (line.dropWhile isPySpace) with
  | none => rw [h1] at h; exact absurd h (by simp)
  | some r1 =>
    rw [h1] at h
    replace h : (match tryLevels levels r1 with
        | none => none
        | some (lvl, r2) => matchMsgTail line lvl r2) = some m := h
    cases h2 : tryLevels levels r1 with
    | none => rw [h2] at h; exact absurd h (by simp)
    | some lr =>
      obtain ⟨lvl, r2⟩ := lr
      rw [h2] at h
      replace h : matchMsgTail line lvl r2 = some m := h
      have hlv := tryLevels_eq_some levels r1 lvl r2 h2
      have hr1mem : ∀ c ∈ r1, c ∈ line := by
        intro c hc
        have hm : c ∈ str "d.logger." ++ r1 := List.mem_append_right _ hc
        rw [← (stripPre_eq_some_iff _ _ _).mp h1] at hm
        exact mem_of_mem_dropWhile _ _ _ hm
      rcases r2 with _ | ⟨c1, _ | ⟨c2, r3⟩⟩
      · exact absurd h (by simp [matchMsgTail])
      · exact absurd h (by simp [matchMsgTail])
      · rw [matchMsgTail] at h
        have hr3mem : ∀ c ∈ r3, c ∈ line := by
          intro c hc
          refine hr1mem c ?_
          rw [hlv.2]
          exact List.mem_append_right _ (List.mem_cons_of_mem c1 (List.mem_cons_of_mem c2 hc))
        by_cases hp : c1 = '(' ∧ c2 = dq
        · rw [if_pos hp] at h
          cases h3 : r3.dropWhile (fun c => c != dq) with
          | nil => rw [h3] at h; exact absurd h (by simp)
          | cons c4 t =>
            rw [h3] at h
            replace h : (if r3.takeWhile (fun c => c != dq) = [] then none
                else match matchTail t with
                  | none => none
                  | some a => some (⟨line.takeWhile isPySpace, lvl,
                      r3.takeWhile (fun c => c != dq), a⟩ : LogCallMatch)) = some m := h
            by_cases hemp : r3.takeWhile (fun c => c != dq) = []
            · rw [if_pos hemp] at h; exact absurd h (by simp)
            · rw [if_neg hemp] at h
              cases h4 : matchTail t with
              | none => rw [h4] at h; exact absurd h (by simp)
              | some a =>
                rw [h4] at h
                replace h : some (⟨line.takeWhile isPySpace, lvl,
                    r3.takeWhile (fun c => c != dq), a⟩ : LogCallMatch) = some m := h
                injection h with h
                subst h
                refine ⟨rfl, hlv.1, hemp, ?_, ?_⟩
                · intro c hc
                  exact hr3mem c (mem_of_mem_takeWhile _ _ _ hc)
                · intro a' ha' c hc
                  have ha2 : a = some a' := ha'
                  subst ha2
                  have hct : c ∈ t := matchTail_mem t a' h4 c hc
                  have hcd : c ∈ r3.dropWhile (fun c => c != dq) := by
                    rw [h3]; exact List.mem_cons_of_mem c4 hct
                  exact hr3mem c (mem_of_mem_dropWhile _ _ _ hcd)
        · rw [if_neg hp] at h
          exact absurd h (by simp)

/-- `buildFields` on a list with an odd number of entries ignores the last
entry. -/
theorem buildFields_odd :
    ∀ ps : List (List Char), ps.length % 2 = 1 →
      buildFields ps = buildFields ps.dropLast
  | [], h => by simp at h
  | [a], _ => by simp [buildFields]
  | a :: b :: t, h => by
    have ht : t.length % 2 = 1 := by
      simp only [List.length_cons] at h
      omega
    rcases t with _ | ⟨x, t2⟩
    · simp at ht
    · rw [List.dropLast_cons₂, List.dropLast_cons₂]
      rw [buildFields, buildFields]
      rw [buildFields_odd (x :: t2) ht]

/-- Unfolding `fixLine` on a matched line. -/
theorem fixLine_eq_convert (line : List Char) (m : LogCallMatch)
    (h : matchLine line = some m) : fixLine line = convert_log_call m := by
  unfold fixLine
  rw [h]

/-! ### The claims -/

/-- Claim C1: an input line that does not match the legacy single-line
call pattern is returned byte-for-byte unchanged by the rewriter. -/
theorem claim1_unmatched_line_unchanged (line : List Char)
    (h : matchLine line = none) : fixLine line = line := by
  unfold fixLine
  rw [h]

/-- Witness for C1 at a concrete non-matching line. -/
theorem claim1_witness :
    matchLine (str "\tresult := compute(a, b)") = none ∧
    fixLine (str "\tresult := compute(a, b)") = str "\tresult := compute(a, b)" :=
  ⟨rfl, claim1_unmatched_line_unchanged _ rfl⟩

/-- Claim C4: the splitter does not split at commas nested inside
parentheses: for the matched call
`d.logger.Warn("msg", "result", compute(a, b, c))` (the spec writes the
fixed receiver `d` as `object`), the raw arguments split into exactly the
two parts `"result"` and `compute(a, b, c)`, and the rewritten line
carries a single field whose value text is exactly `compute(a, b, c)`. -/
theorem claim4_paren_comma_single_field :
    matchLine (str "\td.logger.Warn(\"msg\", \"result\", compute(a, b, c))")
      = some ⟨['\t'], str "Warn", str "msg", some (str "\"result\", compute(a, b, c)")⟩ ∧
    splitParts (str "\"result\", compute(a, b, c)")
      = [str "\"result\"", str "compute(a, b, c)"] ∧
    fixLine (str "\td.logger.Warn(\"msg\", \"result\", compute(a, b, c))")
      = str "\td.logger.Warn(ctx, \"msg\",\n\t\tlogging.Field\x7bKey: \"result\", Value: compute(a, b, c)\x7d,\n\t)" :=
  ⟨rfl, rfl, rfl⟩

/-- Claim C5: while the splitter is inside a quoted literal (quote state
`some q` with `q` one of the two quote characters), a comma is appended to
the current part verbatim and is not treated as a part boundary. -/
theorem claim5_quoted_comma_no_split
    (parts : List (List Char)) (cur : List Char) (d : Int) (q : Char)
    (rest : List Char) (hq : q = dq ∨ q = sq) :
    splitGo parts cur d (some q) (',' :: rest)
      = splitGo parts (cur ++ [',']) d (some q) rest := by
  have hne : ¬(',' : Char) = q := by
    rcases hq with h | h <;> subst h <;> decide
  rw [splitGo, if_neg hne]

/-- Witness for C5: a comma inside a double-quoted literal mid-scan. -/
theorem claim5_witness :
    splitGo [] (str "f(\"a") 0 (some dq) (',' :: str " b\")")
      = splitGo [] (str "f(\"a" ++ [',']) 0 (some dq) (str " b\")") :=
  claim5_quoted_comma_no_split [] (str "f(\"a") 0 dq (str " b\")") (Or.inl rfl)

/-- Claim C6: when the raw arguments split into an odd number of parts,
the field builder pairs parts two at a time in order and the final
unpaired part contributes nothing: the fields equal those built from the
list without its last element. -/
theorem claim6_odd_part_dropped (ps : List (List Char)) (h : ps.length % 2 = 1) :
    buildFields ps = buildFields ps.dropLast :=
  buildFields_odd ps h

/-- Witness for C6 at a concrete three-part list. -/
theorem claim6_witness :
    buildFields [str "\"job\"", str "j", str "stray"]
      = buildFields (List.dropLast [str "\"job\"", str "j", str "stray"]) :=
  claim6_odd_part_dropped [str "\"job\"", str "j", str "stray"] (by decide)

/-- Claim C8: every consumed (key, value) part pair emits a field whose
key text is the key part with double quotes stripped from both ends and
then single quotes stripped from both ends (`parts[i].strip('"').strip("'")`),
and whose value text is the value part verbatim; in particular the key
literal `"request_id"` yields the key `request_id`. -/
theorem claim8_field_key_value :
    (∀ k v rest, buildFields (k :: v :: rest)
        = (str "logging.Field\x7bKey: \"" ++ pyStripChar (pyStripChar k dq) sq
            ++ str "\", Value: " ++ v ++ str "\x7d") :: buildFields rest) ∧
      pyStripChar (pyStripChar (str "\"request_id\"") dq) sq = str "request_id" :=
  ⟨fun _ _ _ => rfl, rfl⟩

/-- Claim C7: a matched call with no trailing arguments is rewritten to
the single line `<indent>d.logger.<Level>(ctx, "<message>")`: the fixed
literal `ctx` is inserted as first argument, the message is preserved, and
the leading indentation is exactly the input line's leading whitespace. -/
theorem claim7_no_args_ctx_inserted (line : List Char) (m : LogCallMatch)
    (_hn : '\n' ∉ line) (h : matchLine line = some m) (ha : m.args = none) :
    fixLine line = line.takeWhile isPySpace ++ str "d.logger." ++ m.level
      ++ str "(ctx, \"" ++ m.message ++ str "\")" := by
  have hfacts := matchLine_eq_some line m h
  have hargs : argsOf m = [] := by unfold argsOf; rw [ha]
  have hfields : fieldsOf m = [] := by unfold fieldsOf; rw [hargs]; simp
  rw [fixLine_eq_convert line m h]
  unfold convert_log_call
  rw [hfields]
  unfold renderCall
  rw [if_pos rfl, hfacts.1]

/-- Witness for C7 at a concrete zero-argument call. -/
theorem claim7_witness :
    fixLine (str "  d.logger.Info(\"starting daemon\")")
      = str "  d.logger.Info(ctx, \"starting daemon\")" := by
  rw [claim7_no_args_ctx_inserted (str "  d.logger.Info(\"starting daemon\")")
    ⟨str "  ", str "Info", str "starting daemon", none⟩ (by decide) rfl rfl]
  rfl

/-- Counterexample to C2 as stated: the field line the rewriter emits is
`logging.Field{...},`, not `Field{...},`; at the claim's own example input
the output differs from the claimed 3-line block. -/
theorem claim2_counterexample :
    fixLine (str "\td.logger.Error(\"failed\", \"err\", err)")
      ≠ str "\td.logger.Error(ctx, \"failed\",\n\t\tField\x7bKey: \"err\", Value: err\x7d,\n\t)" := by
  decide

/-- Claim C2 (amended): for a matched call whose raw arguments split into
exactly one (key, value) pair, the output is the 3-line block: opening
line `<indent>d.logger.<Level>(ctx, "<message>",`, one field line
`<indent>\tlogging.Field{Key: "<key>", Value: <value>},` (one tab deeper
than the original indent, with a trailing comma), and the closing line
`<indent>)`. -/
theorem claim2_one_pair_block (line a k v : List Char) (m : LogCallMatch)
    (_hn : '\n' ∉ line) (h : matchLine line = some m) (ha : m.args = some a)
    (hs : splitParts a = [k, v]) :
    fixLine line = m.indent ++ str "d.logger." ++ m.level ++ str "(ctx, \""
      ++ m.message ++ str "\"" ++ str ",\n" ++ m.indent ++ str "\t"
      ++ fieldText k v ++ str ",\n" ++ m.indent ++ str ")" := by
  have hane : a ≠ [] := by
    intro he
    rw [he] at hs
    replace hs : ([] : List (List Char)) = [k, v] := hs
    exact List.noConfusion hs
  have hargs : argsOf m = a := by unfold argsOf; rw [ha]
  have hfields : fieldsOf m = [fieldText k v] := by
    unfold fieldsOf
    rw [hargs, if_neg hane, hs]
    rfl
  rw [fixLine_eq_convert line m h]
  unfold convert_log_call
  rw [hfields]
  unfold renderCall
  rw [if_neg (by simp : ¬([fieldText k v] : List (List Char)) = [])]
  rw [show joinSep (str ",\n" ++ m.indent ++ str "\t") [fieldText k v]
        = fieldText k v from rfl]
  simp [List.append_assoc]

/-- Witness for the amended C2 at the claim's example input. -/
theorem claim2_witness :
    fixLine (str "\td.logger.Error(\"failed\", \"err\", err)")
      = str "\td.logger.Error(ctx, \"failed\",\n\t\tlogging.Field\x7bKey: \"err\", Value: err\x7d,\n\t)" := by
  rw [claim2_one_pair_block (str "\td.logger.Error(\"failed\", \"err\", err)")
      (str "\"err\", err") (str "\"err\"") (str "err")
      ⟨['\t'], str "Error", str "failed", some (str "\"err\", err")⟩
      (by decide) rfl rfl rfl]
  rfl

/-- Claim C10: a legacy-shaped call whose quoted message is empty is not
matched — the pattern demands at least one non-quote character in the
message — and the line is returned unchanged. -/
theorem claim10_empty_message_unmatched (ind lvl : List Char)
    (hind : ∀ c ∈ ind, isPySpace c = true) (hlvl : lvl ∈ levels) :
    matchLine (ind ++ str "d.logger." ++ lvl ++ str "(\"\")") = none ∧
    fixLine (ind ++ str "d.logger." ++ lvl ++ str "(\"\")")
      = ind ++ str "d.logger." ++ lvl ++ str "(\"\")" := by
  have hws := dropWhile_ws ind 'd' (str ".logger." ++ (lvl ++ str "(\"\")")) hind (by decide)
  have hm : matchLine (ind ++ str "d.logger." ++ lvl ++ str "(\"\")") = none := by
    unfold matchLine
    simp only [List.append_assoc]
    rw [show str "d.logger." ++ (lvl ++ str "(\"\")")
          = 'd' :: (str ".logger." ++ (lvl ++ str "(\"\")")) from rfl]
    rw [hws]
    rw [show ('d' : Char) :: (str ".logger." ++ (lvl ++ str "(\"\")"))
          = str "d.logger." ++ (lvl ++ str "(\"\")") from rfl]
    rw [stripPre_self]
    simp only [levels, List.mem_cons, List.not_mem_nil, or_false] at hlvl
    rcases hlvl with h | h | h | h <;> subst h <;> rfl
  refine ⟨hm, ?_⟩
  unfold fixLine
  rw [hm]

/-- Witness for C10 at the concrete line `d.logger.Info("")`. -/
theorem claim10_witness :
    matchLine ([] ++ str "d.logger." ++ str "Info" ++ str "(\"\")") = none ∧
    fixLine ([] ++ str "d.logger." ++ str "Info" ++ str "(\"\")")
      = [] ++ str "d.logger." ++ str "Info" ++ str "(\"\")" :=
  claim10_empty_message_unmatched [] (str "Info") (by simp) (by decide)

/-- Transport for one splitter step that appends the scanned character to
the current part. -/
theorem splitGo_mem_step (parts : List (List Char)) (cur : List Char)
    (c0 c : Char) (cs : List Char)
    (h : (∃ p0 ∈ parts, c ∈ p0) ∨ c ∈ cur ++ [c0] ∨ c ∈ cs) :
    (∃ p0 ∈ parts, c ∈ p0) ∨ c ∈ cur ∨ c ∈ c0 :: cs := by
  rcases h with h | h | h
  · exact Or.inl h
  · rcases List.mem_append.mp h with h | h
    · exact Or.inr (Or.inl h)
    · simp only [List.mem_singleton] at h
      subst h
      exact Or.inr (Or.inr (List.mem_cons_self _ _))
  · exact Or.inr (Or.inr (List.mem_cons_of_mem _ h))

/-- Every character of every part the splitter produces comes from the
initial parts, the current accumulator, or the remaining input. -/
theorem splitGo_mem :
    ∀ (cs : List Char) (parts : List (List Char)) (cur : List Char) (d : Int)
      (q : Option Char) (p : List Char) (c : Char),
      p ∈ splitGo parts cur d q cs → c ∈ p →
      (∃ p0 ∈ parts, c ∈ p0) ∨ c ∈ cur ∨ c ∈ cs
  | [], parts, cur, d, q, p, c, hp, hc => by
    rw [splitGo] at hp
    split_ifs at hp with hstrip
    · exact Or.inl ⟨p, hp, hc⟩
    · rcases List.mem_append.mp hp with h | h
      · exact Or.inl ⟨p, h, hc⟩
      · simp only [List.mem_singleton] at h
        subst h
        exact Or.inr (Or.inl (mem_of_mem_pyStrip c cur hc))
  | c0 :: cs, parts, cur, d, none, p, c, hp, hc => by
    rw [splitGo] at hp
    split_ifs at hp with h1 h2 h3 h4
    · exact splitGo_mem_step parts cur c0 c cs
        (splitGo_mem cs parts (cur ++ [c0]) d (some c0) p c hp hc)
    · exact splitGo_mem_step parts cur c0 c cs
        (splitGo_mem cs parts (cur ++ [c0]) (d + 1) none p c hp hc)
    · exact splitGo_mem_step parts cur c0 c cs
        (splitGo_mem cs parts (cur ++ [c0]) (d - 1) none p c hp hc)
    · rcases splitGo_mem cs (parts ++ [pyStrip cur]) [] d none p c hp hc with h | h | h
      · rcases h with ⟨p0, hp0, hcp0⟩
        rcases List.mem_append.mp hp0 with h | h
        · exact Or.inl ⟨p0, h, hcp0⟩
        · simp only [List.mem_singleton] at h
          subst h
          exact Or.inr (Or.inl (mem_of_mem_pyStrip c cur hcp0))
      · simp at h
      · exact Or.inr (Or.inr (List.mem_cons_of_mem _ h))
    · exact splitGo_mem_step parts cur c0 c cs
        (splitGo_mem cs parts (cur ++ [c0]) d none p c hp hc)
  | c0 :: cs, parts, cur, d, some q, p, c, hp, hc => by
    rw [splitGo] at hp
    split_ifs at hp with h1
    · exact splitGo_mem_step parts cur c0 c cs
        (splitGo_mem cs parts (cur ++ [c0]) d none p c hp hc)
    · exact splitGo_mem_step parts cur c0 c cs
        (splitGo_mem cs parts (cur ++ [c0]) d (some q) p c hp hc)

/-- Every character of every top-level part comes from the raw argument
text. -/
theorem splitParts_mem (args p : List Char) (hp : p ∈ splitParts args) :
    ∀ c ∈ p, c ∈ args := by
  intro c hc
  rcases splitGo_mem args [] [] 0 none p c hp hc with h | h | h
  · simp at h
  · simp at h
  · exact h

/-- Claim C9: the splitter and the field builder are total: every raw
argument string — including malformed ones with unbalanced parentheses,
an unterminated quote, or an odd part count — yields a definite partition
into parts built only from the input's own characters, with no error
branch; concretely shown on one input of each malformed kind. -/
theorem claim9_splitter_total :
    (∀ args p c, p ∈ splitParts args → c ∈ p → c ∈ args) ∧
    splitParts (str "f(a, b") = [str "f(a, b"] ∧
    splitParts (str "\"x, y") = [str "\"x, y"] ∧
    splitParts (str ")a, b") = [str ")a, b"] ∧
    buildFields (splitParts (str "a, b, c")) = [fieldText (str "a") (str "b")] :=
  ⟨fun args p c hp hc => splitParts_mem args p hp c hc, rfl, rfl, rfl, rfl⟩

/-- Witness for C9: the membership part applied at a concrete split. -/
theorem claim9_witness : 'f' ∈ str "f(a, b" :=
  claim9_splitter_total.1 (str "f(a, b") (str "f(a, b") 'f' (by decide) (by decide)

/-! ### Splitting and joining lines -/

theorem not_nl_append (x y : List Char) (hx : '\n' ∉ x) (hy : '\n' ∉ y) :
    '\n' ∉ x ++ y := by
  intro hm
  rcases List.mem_append.mp hm with h | h
  · exact hx h
  · exact hy h

theorem not_nl_cons (c : Char) (t : List Char) (hc : c ≠ '\n') (ht : '\n' ∉ t) :
    '\n' ∉ c :: t := by
  intro hm
  rcases List.mem_cons.mp hm with h | h
  · exact hc h.symm
  · exact ht h

theorem linesOf_ne_nil : ∀ s : List Char, linesOf s ≠ []
  | [] => by simp [linesOf]
  | c :: cs => by
    rw [linesOf]
    split_ifs
    · simp
    · cases h : linesOf cs with
      | nil => simp
      | cons l ls => simp

theorem linesOf_of_not_nl : ∀ x : List Char, '\n' ∉ x → linesOf x = [x]
  | [], _ => rfl
  | c :: cs, h => by
    have hc : ¬c = '\n' := fun he => h (he ▸ List.mem_cons_self c cs)
    rw [linesOf, if_neg hc,
      linesOf_of_not_nl cs (fun hm => h (List.mem_cons_of_mem c hm))]

theorem linesOf_append_nl : ∀ a b : List Char,
    linesOf (a ++ '\n' :: b) = linesOf a ++ linesOf b
  | [], b => by simp [linesOf]
  | c :: a, b => by
    simp only [List.cons_append, linesOf, List.append_eq]
    by_cases hc : c = '\n'
    · rw [if_pos hc, if_pos hc, linesOf_append_nl a b]
      simp
    · rw [if_neg hc, if_neg hc, linesOf_append_nl a b]
      cases ha : linesOf a with
      | nil => exact absurd ha (linesOf_ne_nil a)
      | cons l ls => simp

theorem mem_linesOf_not_nl : ∀ (s l : List Char), l ∈ linesOf s → '\n' ∉ l
  | [], l, h => by
    simp [linesOf] at h
    subst h
    simp
  | c :: cs, l, h => by
    rw [linesOf] at h
    by_cases hc : c = '\n'
    · rw [if_pos hc] at h
      rcases List.mem_cons.mp h with h | h
      · subst h; simp
      · exact mem_linesOf_not_nl cs l h
    · rw [if_neg hc] at h
      cases ha : linesOf cs with
      | nil =>
        rw [ha] at h
        simp only [List.mem_singleton] at h
        subst h
        exact not_nl_cons c [] hc (by simp)
      | cons l0 ls =>
        rw [ha] at h
        rcases List.mem_cons.mp h with h | h
        · subst h
          exact not_nl_cons c l0 hc
            (mem_linesOf_not_nl cs l0 (by rw [ha]; exact List.mem_cons_self l0 ls))
        · exact mem_linesOf_not_nl cs l (by rw [ha]; exact List.mem_cons_of_mem l0 h)

theorem joinSep_cons (sep x : List Char) (ls : List (List Char)) (h : ls ≠ []) :
    joinSep sep (x :: ls) = x ++ sep ++ joinSep sep ls := by
  cases ls with
  | nil => exact absurd rfl h
  | cons y ys => rfl

theorem joinSep_append : ∀ (sep : List Char) (A B : List (List Char)),
    A ≠ [] → B ≠ [] →
    joinSep sep (A ++ B) = joinSep sep A ++ sep ++ joinSep sep B
  | _, [], _, hA, _ => absurd rfl hA
  | sep, [a], B, _, hB => by
    rw [List.singleton_append, joinSep_cons sep a B hB]
    rfl
  | sep, a :: a2 :: A, B, _, hB => by
    rw [List.cons_append, joinSep_cons sep a ((a2 :: A) ++ B) (by simp),
      joinSep_append sep (a2 :: A) B (by simp) hB,
      joinSep_cons sep a (a2 :: A) (by simp)]
    simp [List.append_assoc]

theorem joinLines_linesOf : ∀ x : List Char, joinLines (linesOf x) = x
  | [] => rfl
  | c :: cs => by
    have IH := joinLines_linesOf cs
    rw [linesOf]
    cases ha : linesOf cs with
    | nil => exact absurd ha (linesOf_ne_nil cs)
    | cons l ls =>
      rw [ha] at IH
      by_cases hc : c = '\n'
      · rw [if_pos hc]
        unfold joinLines
        rw [joinSep_cons ['\n'] [] (l :: ls) (by simp)]
        unfold joinLines at IH
        rw [IH, hc]
        simp
      · rw [if_neg hc]
        show joinLines ((c :: l) :: ls) = c :: cs
        cases ls with
        | nil =>
          unfold joinLines at IH ⊢
          simp only [joinSep] at IH ⊢
          rw [IH]
        | cons l2 ls2 =>
          unfold joinLines at IH ⊢
          rw [joinSep_cons ['\n'] (c :: l) (l2 :: ls2) (by simp)]
          rw [joinSep_cons ['\n'] l (l2 :: ls2) (by simp)] at IH
          rw [← IH]
          simp

theorem linesOf_joinLines : ∀ ls : List (List Char), ls ≠ [] →
    linesOf (joinLines ls) = (ls.map linesOf).flatten
  | [], h => absurd rfl h
  | [x], _ => by simp [joinLines, joinSep]
  | x :: y :: ls, _ => by
    rw [show joinLines (x :: y :: ls) = x ++ ['\n'] ++ joinLines (y :: ls) from
      joinSep_cons ['\n'] x (y :: ls) (by simp)]
    rw [List.append_assoc, List.singleton_append, linesOf_append_nl,
      linesOf_joinLines (y :: ls) (by simp)]
    simp

theorem flatten_map_linesOf_ne_nil (x : List Char) (ls : List (List Char)) :
    (((x :: ls).map linesOf).flatten : List (List Char)) ≠ [] := by
  simp only [List.map_cons, List.flatten_cons]
  intro h
  rcases List.append_eq_nil.mp h with ⟨h1, _⟩
  exact linesOf_ne_nil x h1

theorem joinLines_flatten_map : ∀ ls : List (List Char),
    joinLines ((ls.map linesOf).flatten) = joinLines ls
  | [] => rfl
  | [x] => by
    simp only [List.map_cons, List.map_nil, List.flatten_cons, List.flatten_nil,
      List.append_nil]
    exact joinLines_linesOf x
  | x :: y :: ls => by
    simp only [List.map_cons, List.flatten_cons]
    rw [show linesOf x ++ (linesOf y ++ (List.map linesOf ls).flatten)
          = linesOf x ++ ((y :: ls).map linesOf).flatten by simp]
    unfold joinLines
    rw [joinSep_append ['\n'] (linesOf x) (((y :: ls).map linesOf).flatten)
      (linesOf_ne_nil x) (flatten_map_linesOf_ne_nil y ls)]
    have h1 : joinSep ['\n'] (linesOf x) = x := joinLines_linesOf x
    have h2 : joinSep ['\n'] (((y :: ls).map linesOf).flatten) = joinSep ['\n'] (y :: ls) :=
      joinLines_flatten_map (y :: ls)
    rw [h1, h2, joinSep_cons ['\n'] x (y :: ls) (by simp)]

theorem map_id_of_mem {f : List Char → List Char} :
    ∀ l : List (List Char), (∀ x ∈ l, f x = x) → l.map f = l
  | [], _ => rfl
  | x :: xs, h => by
    rw [List.map_cons, h x (List.mem_cons_self x xs),
      map_id_of_mem xs (fun y hy => h y (List.mem_cons_of_mem x hy))]

/-! ### The shape of the produced lines -/

theorem buildFields_mem :
    ∀ (ps : List (List Char)) (f : List Char), f ∈ buildFields ps →
      ∃ k v, k ∈ ps ∧ v ∈ ps ∧ f = fieldText k v
  | [], f, h => by
    replace h : f ∈ ([] : List (List Char)) := h
    simp at h
  | [a], f, h => by
    replace h : f ∈ ([] : List (List Char)) := h
    simp at h
  | a :: b :: t, f, h => by
    rw [buildFields] at h
    rcases List.mem_cons.mp h with h | h
    · exact ⟨a, b, List.mem_cons_self _ _,
        List.mem_cons_of_mem _ (List.mem_cons_self _ _), h⟩
    · obtain ⟨k, v, hk, hv, he⟩ := buildFields_mem t f h
      exact ⟨k, v, List.mem_cons_of_mem _ (List.mem_cons_of_mem _ hk),
        List.mem_cons_of_mem _ (List.mem_cons_of_mem _ hv), he⟩

theorem fieldText_not_nl (k v : List Char) (hk : '\n' ∉ k) (hv : '\n' ∉ v) :
    '\n' ∉ fieldText k v := by
  unfold fieldText
  have hS : '\n' ∉ stripKey k := fun hm => hk (mem_of_mem_stripKey '\n' k hm)
  exact not_nl_append _ _
    (not_nl_append _ _ (not_nl_append _ _ (not_nl_append _ _ (by decide) hS) (by decide)) hv)
    (by decide)

theorem fieldText_head (k v : List Char) : ∃ t, fieldText k v = 'l' :: t :=
  ⟨str "ogging.Field\x7bKey: \"" ++ stripKey k ++ str "\", Value: " ++ v ++ str "\x7d", rfl⟩

theorem fieldsOf_shape (m : LogCallMatch)
    (han : ∀ a, m.args = some a → '\n' ∉ a) :
    ∀ f ∈ fieldsOf m, '\n' ∉ f ∧ ∃ t, f = 'l' :: t := by
  intro f hf
  have hargsn : '\n' ∉ argsOf m := by
    cases ha : m.args with
    | none => unfold argsOf; rw [ha]; simp
    | some a => unfold argsOf; rw [ha]; exact han a ha
  unfold fieldsOf at hf
  split_ifs at hf with hz
  · simp at hf
  · obtain ⟨k, v, hk, hv, he⟩ := buildFields_mem _ f hf
    subst he
    refine ⟨fieldText_not_nl k v ?_ ?_, fieldText_head k v⟩
    · exact fun hm => hargsn (splitParts_mem _ k hk '\n' hm)
    · exact fun hm => hargsn (splitParts_mem _ v hv '\n' hm)

theorem level_not_nl (lvl : List Char) (h : lvl ∈ levels) : '\n' ∉ lvl := by
  simp only [levels, List.mem_cons, List.not_mem_nil, or_false] at h
  rcases h with h | h | h | h <;> subst h <;> decide

theorem renderCall_nil (m : LogCallMatch) :
    renderCall m [] = m.indent ++ str "d.logger." ++ m.level
      ++ '(' :: 'c' :: (str "tx, \"" ++ (m.message ++ str "\")")) := by
  unfold renderCall
  rw [if_pos rfl]
  rw [show str "(ctx, \"" = '(' :: 'c' :: str "tx, \"" from rfl]
  simp [List.append_assoc, List.cons_append]

theorem renderCall_cons (m : LogCallMatch) (f : List Char) (fs : List (List Char)) :
    renderCall m (f :: fs)
      = (m.indent ++ str "d.logger." ++ m.level
          ++ '(' :: 'c' :: (str "tx, \"" ++ (m.message ++ str "\",")))
        ++ '\n' :: (m.indent ++ '\t'
          :: (joinSep (str ",\n" ++ m.indent ++ str "\t") (f :: fs)
            ++ ',' :: '\n' :: (m.indent ++ [')']))) := by
  unfold renderCall
  rw [if_neg (by simp)]
  rw [show str "(ctx, \"" = '(' :: 'c' :: str "tx, \"" from rfl,
    show str ",\n" = [',', '\n'] from rfl,
    show str "\t" = ['\t'] from rfl,
    show str ")" = [')'] from rfl,
    show str "\"" = ['\"'] from rfl,
    show str "\"," = ['\"', ','] from rfl]
  simp [List.append_assoc, List.cons_append, List.singleton_append]

theorem mid_lines_unmatched (ind : List Char)
    (hind : ∀ c ∈ ind, isPySpace c = true) (hindn : '\n' ∉ ind) :
    ∀ (fs : List (List Char)) (f : List Char),
      (∀ g ∈ f :: fs, '\n' ∉ g ∧ ∃ t, g = 'l' :: t) →
      ∀ l ∈ linesOf (ind ++ '\t'
          :: (joinSep (str ",\n" ++ ind ++ str "\t") (f :: fs)
            ++ ',' :: '\n' :: (ind ++ [')']))),
        matchLine l = none
  | [], f => by
    intro hfs l hl
    obtain ⟨hfn, t, hft⟩ := hfs f (List.mem_cons_self _ _)
    rw [show joinSep (str ",\n" ++ ind ++ str "\t") [f] = f from rfl] at hl
    rw [show ind ++ '\t' :: (f ++ ',' :: '\n' :: (ind ++ [')']))
          = (ind ++ '\t' :: (f ++ [','])) ++ '\n' :: (ind ++ [')']) by
        simp [List.append_assoc, List.cons_append, List.singleton_append]] at hl
    rw [linesOf_append_nl] at hl
    rw [linesOf_of_not_nl (ind ++ '\t' :: (f ++ [',']))
        (not_nl_append _ _ hindn (not_nl_cons _ _ (by decide)
          (not_nl_append _ _ hfn (by decide))))] at hl
    rw [linesOf_of_not_nl (ind ++ [')'])
        (not_nl_append _ _ hindn (by decide))] at hl
    rcases List.mem_append.mp hl with hl | hl
    · simp only [List.mem_singleton] at hl
      subst hl
      subst hft
      rw [show ind ++ '\t' :: (('l' :: t) ++ [','])
            = (ind ++ ['\t']) ++ 'l' :: (t ++ [',']) by
          simp [List.append_assoc, List.cons_append, List.singleton_append]]
      refine matchLine_none_of_head_ne (ind ++ ['\t']) 'l' (t ++ [',']) ?_ (by decide) (by decide)
      intro c hc
      rcases List.mem_append.mp hc with h | h
      · exact hind c h
      · simp only [List.mem_singleton] at h
        subst h
        decide
    · simp only [List.mem_singleton] at hl
      subst hl
      exact matchLine_none_of_head_ne ind ')' [] hind (by decide) (by decide)
  | f2 :: fs, f => by
    intro hfs l hl
    obtain ⟨hfn, t, hft⟩ := hfs f (List.mem_cons_self _ _)
    rw [joinSep_cons (str ",\n" ++ ind ++ str "\t") f (f2 :: fs) (by simp)] at hl
    rw [show ind ++ '\t' :: (f ++ (str ",\n" ++ ind ++ str "\t")
            ++ joinSep (str ",\n" ++ ind ++ str "\t") (f2 :: fs)
            ++ ',' :: '\n' :: (ind ++ [')']))
          = (ind ++ '\t' :: (f ++ [','])) ++ '\n'
            :: (ind ++ '\t' :: (joinSep (str ",\n" ++ ind ++ str "\t") (f2 :: fs)
              ++ ',' :: '\n' :: (ind ++ [')']))) by
        rw [show str ",\n" = [',', '\n'] from rfl, show str "\t" = ['\t'] from rfl]
        simp [List.append_assoc, List.cons_append, List.singleton_append]] at hl
    rw [linesOf_append_nl] at hl
    rw [linesOf_of_not_nl (ind ++ '\t' :: (f ++ [',']))
        (not_nl_append _ _ hindn (not_nl_cons _ _ (by decide)
          (not_nl_append _ _ hfn (by decide))))] at hl
    rcases List.mem_append.mp hl with hl | hl
    · simp only [List.mem_singleton] at hl
      subst hl
      subst hft
      rw [show ind ++ '\t' :: (('l' :: t) ++ [','])
            = (ind ++ ['\t']) ++ 'l' :: (t ++ [',']) by
          simp [List.append_assoc, List.cons_append, List.singleton_append]]
      refine matchLine_none_of_head_ne (ind ++ ['\t']) 'l' (t ++ [',']) ?_ (by decide) (by decide)
      intro c hc
      rcases List.mem_append.mp hc with h | h
      · exact hind c h
      · simp only [List.mem_singleton] at h
        subst h
        decide
    · exact mid_lines_unmatched ind hind hindn fs f2
        (fun g hg => hfs g (List.mem_cons_of_mem f hg)) l hl

theorem convert_lines_unmatched (m : LogCallMatch)
    (hind : ∀ c ∈ m.indent, isPySpace c = true) (hindn : '\n' ∉ m.indent)
    (hlvl : m.level ∈ levels) (hmsgn : '\n' ∉ m.message)
    (hfld : ∀ f ∈ fieldsOf m, '\n' ∉ f ∧ ∃ t, f = 'l' :: t) :
    ∀ l ∈ linesOf (convert_log_call m), matchLine l = none := by
  intro l hl
  unfold convert_log_call at hl
  have hlvln : '\n' ∉ m.level := level_not_nl m.level hlvl
  cases hf : fieldsOf m with
  | nil =>
    rw [hf, renderCall_nil] at hl
    have hnn : '\n' ∉ m.indent ++ str "d.logger." ++ m.level
        ++ '(' :: 'c' :: (str "tx, \"" ++ (m.message ++ str "\")")) :=
      not_nl_append _ _ (not_nl_append _ _ (not_nl_append _ _ hindn (by decide)) hlvln)
        (not_nl_cons _ _ (by decide) (not_nl_cons _ _ (by decide)
          (not_nl_append _ _ (by decide) (not_nl_append _ _ hmsgn (by decide)))))
    rw [linesOf_of_not_nl _ hnn] at hl
    simp only [List.mem_singleton] at hl
    subst hl
    exact matchLine_none_ctx m.indent m.level _ hind hlvl
  | cons f fs =>
    rw [hf, renderCall_cons] at hl
    rw [linesOf_append_nl] at hl
    have hopen : '\n' ∉ m.indent ++ str "d.logger." ++ m.level
        ++ '(' :: 'c' :: (str "tx, \"" ++ (m.message ++ str "\",")) :=
      not_nl_append _ _ (not_nl_append _ _ (not_nl_append _ _ hindn (by decide)) hlvln)
        (not_nl_cons _ _ (by decide) (not_nl_cons _ _ (by decide)
          (not_nl_append _ _ (by decide) (not_nl_append _ _ hmsgn (by decide)))))
    rw [linesOf_of_not_nl _ hopen] at hl
    rcases List.mem_append.mp hl with hl | hl
    · simp only [List.mem_singleton] at hl
      subst hl
      exact matchLine_none_ctx m.indent m.level _ hind hlvl
    · rw [hf] at hfld
      exact mid_lines_unmatched m.indent hind hindn fs f hfld l hl

/-- Every line produced for a matched (newline-free) input line fails to
match the pattern again. -/
theorem matched_convert_unmatched (line : List Char) (m : LogCallMatch)
    (hn : '\n' ∉ line) (h : matchLine line = some m) :
    ∀ l ∈ linesOf (convert_log_call m), matchLine l = none := by
  obtain ⟨hind_eq, hlvl, _, hmsg_mem, hargs_mem⟩ := matchLine_eq_some line m h
  have hind : ∀ c ∈ m.indent, isPySpace c = true := by
    rw [hind_eq]
    intro c hc
    exact List.mem_takeWhile_imp hc
  have hindn : '\n' ∉ m.indent := by
    rw [hind_eq]
    intro hc
    exact hn (mem_of_mem_takeWhile _ _ _ hc)
  have hmsgn : '\n' ∉ m.message := fun hc => hn (hmsg_mem '\n' hc)
  have han : ∀ a, m.args = some a → '\n' ∉ a :=
    fun a ha hc => hn (hargs_mem a ha '\n' hc)
  exact convert_lines_unmatched m hind hindn hlvl hmsgn (fieldsOf_shape m han)

/-- Every line of the rewrite of a newline-free line is itself fixed by
the rewriter. -/
theorem fixLine_fix (y : List Char) (hy : '\n' ∉ y) :
    ∀ l ∈ linesOf (fixLine y), fixLine l = l := by
  intro l hl
  cases hm : matchLine y with
  | none =>
    have he : fixLine y = y := by unfold fixLine; rw [hm]
    rw [he, linesOf_of_not_nl y hy] at hl
    simp only [List.mem_singleton] at hl
    subst hl
    exact he
  | some mm =>
    rw [fixLine_eq_convert y mm hm] at hl
    have hnone := matched_convert_unmatched y mm hy hm l hl
    unfold fixLine
    rw [hnone]

/-- Running the whole-file transformation twice gives the same result as
running it once. -/
theorem fix_file_idem (content : List Char) :
    fix_file (fix_file content) = fix_file content := by
  unfold fix_file
  cases hL : linesOf content with
  | nil => exact absurd hL (linesOf_ne_nil content)
  | cons l0 ls =>
    rw [List.map_cons]
    rw [linesOf_joinLines (fixLine l0 :: List.map fixLine ls) (by simp)]
    have hflat : ∀ l ∈ ((fixLine l0 :: List.map fixLine ls).map linesOf).flatten,
        fixLine l = l := by
      intro l hl
      rw [List.mem_flatten] at hl
      obtain ⟨L, hLmem, hlL⟩ := hl
      rw [List.mem_map] at hLmem
      obtain ⟨x, hx, hLx⟩ := hLmem
      have hxy : ∃ y ∈ l0 :: ls, x = fixLine y := by
        rcases List.mem_cons.mp hx with hx | hx
        · exact ⟨l0, List.mem_cons_self _ _, hx⟩
        · rw [List.mem_map] at hx
          obtain ⟨y, hy, hxy⟩ := hx
          exact ⟨y, List.mem_cons_of_mem _ hy, hxy.symm⟩
      obtain ⟨y, hy, hxy⟩ := hxy
      subst hLx
      subst hxy
      have hyn : '\n' ∉ y := mem_linesOf_not_nl content y (by rw [hL]; exact hy)
      exact fixLine_fix y hyn l hlL
    rw [map_id_of_mem _ hflat]
    exact joinLines_flatten_map (fixLine l0 :: List.map fixLine ls)

/-- Claim C3: no line produced by the rewriter matches the legacy pattern
again, so running the tool a second time on already-converted output
leaves it unchanged. -/
theorem claim3_second_pass_fixed :
    (∀ content, fix_file (fix_file content) = fix_file content) ∧
    (∀ line m l, '\n' ∉ line → matchLine line = some m →
      l ∈ linesOf (convert_log_call m) → matchLine l = none) :=
  ⟨fix_file_idem, fun line m l hn h hl => matched_convert_unmatched line m hn h l hl⟩

/-- Witness for C3: the rewritten form of a concrete matched line is not
matched again. -/
theorem claim3_witness :
    matchLine (str "d.logger.Info(ctx, \"a\")") = none :=
  claim3_second_pass_fixed.2 (str "d.logger.Info(\"a\")")
    ⟨[], str "Info", str "a", none⟩ (str "d.logger.Info(ctx, \"a\")")
    (by decide) rfl (by decide)

end FixDaemonLogs
